import Mathlib

/-!
Verification of the imposition-matrix engine of pdfimpose.

This file is a shallow embedding, in Lean 4, of the parts of the
`pdfimpose` Python package that the verified properties talk about:

* the geometry primitives `Margins`, `Page`, `Matrix` and the derived
  methods `stack`, `topleft`, `pagesize` (`pdfimpose/schema/common.py`);
* `compute_signature` (`pdfimpose/schema/common.py`);
* the per-scheme `blank_page_number` padding rules and the matrix
  generators of the `onepagezine`, `cards`, `wire` and `perfect` schemes;
* the blank-page bookkeeping of `pdfimpose/pdf.py` (`Reader.__getitem__`).

Python `float` quantities (margins, page sizes) are modelled as `ℚ`;
Python `int` page numbers as `ℤ` (page counts and grid indices as `ℕ`).
A Python function that can raise an exception on the modelled path is
embedded as an `Option`-valued function returning `none` there.
-/

namespace PdfImpose

/-! ### Margins (schema/common.py, class Margins)

`Margins(v)` fills all four sides with `v` (`__post_init__`); the Lean
counterpart of that single-argument constructor is `Margins.uniform`. -/

structure Margins where
  left : ℚ := 0
  right : ℚ := 0
  top : ℚ := 0
  bottom : ℚ := 0
deriving DecidableEq, Repr

def Margins.uniform (v : ℚ) : Margins := ⟨v, v, v, v⟩

/-! ### Page (schema/common.py, class Page)

`number` is a Python `int` (modelled as `ℤ`), `rotate` an angle kept in
`[0, 360)` by `Matrix.__post_init__`, and the four margins are lengths. -/

structure Page where
  number : ℤ
  rotate : ℕ := 0
  left : ℚ := 0
  right : ℚ := 0
  top : ℚ := 0
  bottom : ℚ := 0
deriving DecidableEq, Repr

instance : Inhabited Page := ⟨⟨0, 0, 0, 0, 0, 0⟩⟩

/-! ### Matrix (schema/common.py, class Matrix)

`pages` is a list of columns (`pages[x][y]` in the source). Out-of-range
accesses raise `IndexError` in Python; the embedding totalises `get`
with a default page, and every theorem below only reads in-range slots
of rectangular matrices, where the two semantics agree. -/

structure Matrix where
  pages : List (List Page)
deriving DecidableEq, Repr

instance : Inhabited Matrix := ⟨⟨[[]]⟩⟩

def Matrix.width (m : Matrix) : ℕ := m.pages.length

/-- `height` reads `len(self.pages[0])`. -/
def Matrix.height (m : Matrix) : ℕ := (m.pages.headD []).length

def Matrix.get (m : Matrix) (x y : ℕ) : Page := (m.pages.getD x []).getD y default

/-- `Matrix.__post_init__`: building a matrix adds the `rotate` argument to
every slot's rotation, modulo 360.  A plain `Matrix(pages)` construction
is `mkMatrix pages 0` (the `% 360` is still applied). -/
def mkMatrix (pages : List (List Page)) (rotate : ℕ := 0) : Matrix :=
  ⟨pages.map (List.map fun p => { p with rotate := (p.rotate + rotate) % 360 })⟩

/-- `Matrix.stack`: a copy of the matrix, rebuilt slot by slot over
`range(width) × range(height)`, with every page number incremented. -/
def Matrix.stack (m : Matrix) (number : ℤ) : Matrix :=
  mkMatrix ((List.range m.width).map fun x =>
    (List.range m.height).map fun y =>
      { m.get x y with number := (m.get x y).number + number })

/-- `AbstractImpositor.stack_matrixes`: for `i in range(rep)`, yield each
matrix of the list stacked by `i * step`. -/
def stack_matrixes (matrixes : List Matrix) (step : ℤ) (rep : ℕ) : List Matrix :=
  (List.range rep).flatMap fun i => matrixes.map fun m => m.stack (i * step)

/-! ### blank_page_number of each scheme -/

/-- `OnePageZineImpositor.blank_page_number` (schema/onepagezine). -/
def onepagezine_blank_page_number (source : ℕ) : ℕ :=
  if source % 8 = 0 then 0 else 8 - source % 8

/-- `CardsImpositor.blank_page_number` (schema/cards); the modulus is
`2 * signature[0] * signature[1]`. -/
def cards_blank_page_number (w h source : ℕ) : ℕ :=
  if source % (2 * w * h) = 0 then 0 else 2 * w * h - source % (2 * w * h)

/-- `WireImpositor` inherits `blank_page_number` from `CardsImpositor`
(schema/wire: `class WireImpositor(cards.CardsImpositor)`). -/
def wire_blank_page_number (w h source : ℕ) : ℕ :=
  cards_blank_page_number w h source

/-- `CutStackFoldImpositor.blank_page_number` (schema/cutstackfold); the
modulus is `4 * signature[0] * signature[1]`. -/
def cutstackfold_blank_page_number (w h source : ℕ) : ℕ :=
  if source % (4 * w * h) = 0 then 0 else 4 * w * h - source % (4 * w * h)

/-- `CopyCutFoldImpositor.blank_page_number` (schema/copycutfold); the
modulus is `4`. -/
def copycutfold_blank_page_number (source : ℕ) : ℕ :=
  if source % 4 = 0 then 0 else 4 - source % 4

/-- The padding contract: the number of blanks `b` lands in `[0, m)`,
completes `n` to a multiple of `m`, and vanishes exactly on multiples. -/
def padSpec (m n b : ℕ) : Prop :=
  b < m ∧ (n + b) % m = 0 ∧ (b = 0 ↔ n % m = 0)

lemma padSpec_of_blank (m n : ℕ) (hm : 0 < m) :
    padSpec m n (if n % m = 0 then 0 else m - n % m) := by
  unfold padSpec
  by_cases h : n % m = 0
  · simp [h, Nat.add_mod, hm]
  · have hlt : n % m < m := Nat.mod_lt n hm
    have hpos : 0 < n % m := Nat.pos_of_ne_zero h
    have key : n + (m - n % m) = m * (n / m + 1) := by
      have hdm := Nat.div_add_mod n m
      have : m * (n / m + 1) = m * (n / m) + m := by ring
      omega
    rw [if_neg h]
    refine ⟨by omega, ?_, by omega⟩
    rw [key]
    exact Nat.mul_mod_right m _

/-- Claim C1: for every page count `n > 0` and (for the signature-based
schemes) every signature `(w, h)` with positive dimensions,
`blank_page_number n` returns a value `b` with `0 ≤ b < m` and
`(n + b) % m = 0`, where `m` is the scheme's modulus (8 for the
one-page zine, `2*w*h` for cards and wire, `4*w*h` for cut-stack-fold,
4 for copy-cut-fold), and `b = 0` exactly when `n % m = 0`. -/
theorem blank_page_number_padSpec (n w h : ℕ) (hn : 0 < n) (hw : 0 < w) (hh : 0 < h) :
    padSpec 8 n (onepagezine_blank_page_number n) ∧
    padSpec (2 * w * h) n (cards_blank_page_number w h n) ∧
    padSpec (2 * w * h) n (wire_blank_page_number w h n) ∧
    padSpec (4 * w * h) n (cutstackfold_blank_page_number w h n) ∧
    padSpec 4 n (copycutfold_blank_page_number n) := by
  have hwh2 : 0 < 2 * w * h := by positivity
  have hwh4 : 0 < 4 * w * h := by positivity
  exact ⟨padSpec_of_blank 8 n (by norm_num),
    padSpec_of_blank _ n hwh2, padSpec_of_blank _ n hwh2,
    padSpec_of_blank _ n hwh4, padSpec_of_blank 4 n (by norm_num)⟩

/-- Witness for `blank_page_number_padSpec` at `n = 13`, `w = 2`, `h = 3`. -/
theorem blank_page_number_padSpec_witness :
    0 < 13 ∧ 0 < 2 ∧ 0 < 3 ∧
      (padSpec 8 13 (onepagezine_blank_page_number 13) ∧
       padSpec (2 * 2 * 3) 13 (cards_blank_page_number 2 3 13) ∧
       padSpec (2 * 2 * 3) 13 (wire_blank_page_number 2 3 13) ∧
       padSpec (4 * 2 * 3) 13 (cutstackfold_blank_page_number 2 3 13) ∧
       padSpec 4 13 (copycutfold_blank_page_number 13)) :=
  ⟨by norm_num, by norm_num, by norm_num,
    blank_page_number_padSpec 13 2 3 (by norm_num) (by norm_num) (by norm_num)⟩

/-! ### Generic lemmas about matrices built over `range` comprehensions -/

lemma getD_map_range {α : Type} (f : ℕ → α) (n i : ℕ) (h : i < n) (d : α) :
    ((List.range n).map f).getD i d = f i := by
  rw [List.getD_eq_getElem?_getD]
  simp [List.getElem?_range, h]

lemma mkMatrix_map_range (f : ℕ → ℕ → Page) (w h rot : ℕ) :
    mkMatrix ((List.range w).map fun x => (List.range h).map fun y => f x y) rot =
      ⟨(List.range w).map fun x => (List.range h).map fun y =>
        { f x y with rotate := ((f x y).rotate + rot) % 360 }⟩ := by
  simp [mkMatrix, List.map_map]

lemma width_mk_map_range (f : ℕ → List Page) (w : ℕ) :
    (Matrix.mk ((List.range w).map f)).width = w := by
  simp [Matrix.width]

lemma height_mk_map_range (f : ℕ → List Page) (w : ℕ) (hw : 0 < w) :
    (Matrix.mk ((List.range w).map f)).height = (f 0).length := by
  obtain ⟨w', rfl⟩ := Nat.exists_eq_succ_of_ne_zero hw.ne'
  rw [List.range_succ_eq_map]
  simp [Matrix.height]

lemma get_mk_map_range (f : ℕ → ℕ → Page) (w h x y : ℕ) (hx : x < w) (hy : y < h) :
    (Matrix.mk ((List.range w).map fun x => (List.range h).map fun y => f x y)).get x y
      = f x y := by
  unfold Matrix.get
  rw [getD_map_range _ w x hx, getD_map_range _ h y hy]

lemma stack_width (m : Matrix) (k : ℤ) : (m.stack k).width = m.width := by
  rw [Matrix.stack, mkMatrix_map_range, width_mk_map_range]

lemma stack_height (m : Matrix) (k : ℤ) (hw : 0 < m.width) :
    (m.stack k).height = m.height := by
  rw [Matrix.stack, mkMatrix_map_range, height_mk_map_range _ _ hw]
  simp

lemma stack_get (m : Matrix) (k : ℤ) (x y : ℕ) (hx : x < m.width) (hy : y < m.height) :
    (m.stack k).get x y =
      { m.get x y with
        number := (m.get x y).number + k,
        rotate := (m.get x y).rotate % 360 } := by
  rw [Matrix.stack, mkMatrix_map_range, get_mk_map_range _ _ _ _ _ hx hy]
  set p := m.get x y with hp
  clear_value p
  cases p
  simp

/-- Canonical form of a stacked matrix. -/
lemma stack_eq (m : Matrix) (k : ℤ) :
    m.stack k = ⟨(List.range m.width).map fun x => (List.range m.height).map fun y =>
      { m.get x y with
        number := (m.get x y).number + k,
        rotate := (m.get x y).rotate % 360 }⟩ := by
  rw [Matrix.stack, mkMatrix_map_range]
  refine congrArg Matrix.mk (List.map_congr_left fun x _ => List.map_congr_left fun y _ => ?_)
  set p := m.get x y with hp
  clear_value p
  cases p
  simp

/-- Claim C5: stacking offsets compose additively — `M.stack(k).stack(j)`
is the very same matrix as `M.stack(k + j)` (in particular every slot
carries the same page number). -/
theorem stack_stack (m : Matrix) (k j : ℤ) :
    (m.stack k).stack j = m.stack (k + j) ∧
    ∀ x y : ℕ, (((m.stack k).stack j).get x y).number = ((m.stack (k + j)).get x y).number := by
  have main : (m.stack k).stack j = m.stack (k + j) := by
    rcases Nat.eq_zero_or_pos m.width with hw | hw
    · have h0 : m.stack k = ⟨[]⟩ := by rw [stack_eq, hw]; rfl
      have h0' : m.stack (k + j) = ⟨[]⟩ := by rw [stack_eq, hw]; rfl
      rw [h0, h0', stack_eq]
      rfl
    · have hwidth : (m.stack k).width = m.width := stack_width m k
      have hheight : (m.stack k).height = m.height := stack_height m k hw
      rw [stack_eq (m.stack k) j, stack_eq m (k + j), hwidth, hheight]
      refine congrArg Matrix.mk
        (List.map_congr_left fun x hx => List.map_congr_left fun y hy => ?_)
      rw [List.mem_range] at hx hy
      rw [stack_get m k x y hx hy]
      have hmod : (m.get x y).rotate % 360 % 360 = (m.get x y).rotate % 360 :=
        Nat.mod_mod_of_dvd _ dvd_rfl
      set p := m.get x y with hp
      clear_value p
      cases p
      simp only at hmod ⊢
      simp [hmod, add_assoc]
  exact ⟨main, fun x y => by rw [main]⟩

/-! ### The one-page-zine scheme (schema/onepagezine) -/

/-- `BIND2ANGLE` (schema/common.py): the rotation added for each binding
edge; `"left"` maps to 0. -/
def BIND2ANGLE_left : ℕ := 0

/-- `OnePageZineImpositor.base_matrix`: the hard-coded 4×2 arrangement.
Each inner list is one column `pages[x]`; `Page` fields are
(number, rotate, left, right, top, bottom), matching the keyword
arguments of the source. -/
def onepagezine_base_matrix (om : Margins) (bindangle : ℕ) : Matrix :=
  mkMatrix
    [[⟨4, 180, om.left, 0, om.top, 0⟩, ⟨5, 0, om.left, 0, 0, om.bottom⟩],
     [⟨3, 180, 0, 0, om.top, 0⟩, ⟨6, 0, 0, 0, 0, om.bottom⟩],
     [⟨2, 180, 0, 0, om.top, 0⟩, ⟨7, 0, 0, 0, 0, om.bottom⟩],
     [⟨1, 180, 0, om.right, om.top, 0⟩, ⟨0, 0, 0, om.right, 0, om.bottom⟩]]
    bindangle

/-- `OnePageZineImpositor.matrixes`: `stack_matrixes` of the single base
matrix with `step = 8` and `repeat = pages // 8`. -/
def onepagezine_matrixes (om : Margins) (bindangle : ℕ) (pages : ℕ) : List Matrix :=
  stack_matrixes [onepagezine_base_matrix om bindangle] 8 (pages / 8)

/-- Claim C7: for the one-page-zine scheme with 8 source pages, zero
margins and the default left binding (angle 0), `matrixes(8)` yields
exactly one matrix, 4 slots wide and 2 slots high, whose columns as
(number, rotate) pairs are `[(4,180),(5,0)], [(3,180),(6,0)],
[(2,180),(7,0)], [(1,180),(0,0)]`. -/
theorem onepagezine_eight_pages :
    (onepagezine_matrixes (Margins.uniform 0) BIND2ANGLE_left 8).length = 1 ∧
    ∀ m ∈ onepagezine_matrixes (Margins.uniform 0) BIND2ANGLE_left 8,
      m.width = 4 ∧ m.height = 2 ∧
      m.pages.map (List.map fun p => (p.number, p.rotate)) =
        [[(4, 180), (5, 0)], [(3, 180), (6, 0)], [(2, 180), (7, 0)], [(1, 180), (0, 0)]] := by
  decide

/-! ### The Reader (pdf.py, class Reader)

A `Reader` opens a list of files; only the page count of each file
matters for indexing, so `files` is the list of per-file page counts.
`sourceLookup` is the `cumulative` for-loop of `Reader.__getitem__`: it
returns the page handle, identified as (file index, page index within
that file), or `none` when the loop falls through (Python's implicit
`return None`). -/

structure Reader where
  files : List ℕ
  blank_number : ℕ := 0
  blank_position : ℕ := 0
deriving DecidableEq, Repr

def sourceLookup : List ℕ → ℕ → Option (ℕ × ℕ)
  | [], _ => none
  | f :: rest, key =>
    if key < f then some (0, key)
    else (sourceLookup rest (key - f)).map fun p => (p.1 + 1, p.2)

/-- `Reader.__len__`: sum of file lengths plus the configured blanks. -/
def Reader.length (r : Reader) : ℕ := r.files.sum + r.blank_number

/-- `Reader.set_final_blank_pages(number, position)`. -/
def Reader.set_final_blank_pages (r : Reader) (number position : ℕ) : Reader :=
  { r with blank_number := number, blank_position := position }

/-- `Reader.__getitem__`: keys inside the blank window give the blank
sentinel (`None`); keys past the window are shifted down by the number
of blanks before the cumulative file lookup. -/
def Reader.getitem (r : Reader) (key : ℕ) : Option (ℕ × ℕ) :=
  if r.blank_position ≤ key ∧ key < r.blank_position + r.blank_number then none
  else
    sourceLookup r.files
      (if r.blank_position + r.blank_number ≤ key then key - r.blank_number else key)

lemma sourceLookup_eq_none_of_le (files : List ℕ) (key : ℕ) (h : files.sum ≤ key) :
    sourceLookup files key = none := by
  induction files generalizing key with
  | nil => rfl
  | cons f rest ih =>
    rw [List.sum_cons] at h
    rw [sourceLookup, if_neg (by omega), ih (key - f) (by omega)]
    rfl

lemma sourceLookup_isSome_of_lt (files : List ℕ) (key : ℕ) (h : key < files.sum) :
    (sourceLookup files key).isSome := by
  induction files generalizing key with
  | nil => simp at h
  | cons f rest ih =>
    rw [List.sum_cons] at h
    rw [sourceLookup]
    by_cases hf : key < f
    · simp [hf]
    · rw [if_neg hf]
      have := ih (key - f) (by omega)
      rcases Option.isSome_iff_exists.mp this with ⟨p, hp⟩
      simp [hp]

/-- Claim C4: in `AbstractImpositor.read`, the reader of a `p`-page
source is configured with `b` blank pages at position `p - last`
(`reader.set_final_blank_pages(self.blank_page_number(len(reader)),
len(reader) - self.last)`).  The padded sequence then reads: source
page `i` for `i < p - last`, the blank sentinel for
`p - last ≤ i < p - last + b`, and source page `i - b` for
`i ≥ p - last + b`; consequently the final `last` source pages stay the
final `last` pages of the padded sequence. -/
theorem read_padded_sequence (files : List ℕ) (last b i : ℕ)
    (hlast : last ≤ files.sum) (hi : i < files.sum + b) :
    (i < files.sum - last →
      ((Reader.mk files 0 0).set_final_blank_pages b (files.sum - last)).getitem i
        = sourceLookup files i) ∧
    (files.sum - last ≤ i → i < files.sum - last + b →
      ((Reader.mk files 0 0).set_final_blank_pages b (files.sum - last)).getitem i
        = none) ∧
    (files.sum - last + b ≤ i →
      ((Reader.mk files 0 0).set_final_blank_pages b (files.sum - last)).getitem i
        = sourceLookup files (i - b)) ∧
    (∀ j, j < last →
      ((Reader.mk files 0 0).set_final_blank_pages b (files.sum - last)).getitem
          (files.sum + b - last + j)
        = sourceLookup files (files.sum - last + j) ∧
        (sourceLookup files (files.sum - last + j)).isSome) := by
  set p := files.sum with hp
  unfold Reader.set_final_blank_pages Reader.getitem
  dsimp only
  refine ⟨fun h1 => ?_, fun h1 h2 => ?_, fun h1 => ?_, fun j hj => ?_⟩
  · rw [if_neg (by omega), if_neg (by omega)]
  · rw [if_pos (by omega)]
  · rw [if_neg (by omega), if_pos (by omega)]
  · constructor
    · rw [if_neg (by omega), if_pos (by omega)]
      congr 1
      omega
    · exact sourceLookup_isSome_of_lt files _ (by omega)

/-- Witness for `read_padded_sequence`: one 6-page file, `last = 2`,
`b = 3`; index 1 is a source page, index 5 a blank, index 7 the shifted
source page 4. -/
theorem read_padded_sequence_witness :
    2 ≤ [6].sum ∧ 5 < [6].sum + 3 ∧
      (5 < [6].sum - 2 →
        ((Reader.mk [6] 0 0).set_final_blank_pages 3 ([6].sum - 2)).getitem 5
          = sourceLookup [6] 5) ∧
      ([6].sum - 2 ≤ 5 → 5 < [6].sum - 2 + 3 →
        ((Reader.mk [6] 0 0).set_final_blank_pages 3 ([6].sum - 2)).getitem 5
          = none) ∧
      ([6].sum - 2 + 3 ≤ 5 →
        ((Reader.mk [6] 0 0).set_final_blank_pages 3 ([6].sum - 2)).getitem 5
          = sourceLookup [6] (5 - 3)) ∧
      (∀ j, j < 2 →
        ((Reader.mk [6] 0 0).set_final_blank_pages 3 ([6].sum - 2)).getitem
            ([6].sum + 3 - 2 + j)
          = sourceLookup [6] ([6].sum - 2 + j) ∧
          (sourceLookup [6] ([6].sum - 2 + j)).isSome) :=
  ⟨by norm_num, by norm_num,
    read_padded_sequence [6] 2 3 5 (by norm_num) (by norm_num)⟩

/-- Claim C10: indexing a reader at or past the end of the padded
sequence returns the blank sentinel (`None`) — exactly what an
explicitly inserted blank page returns — instead of raising an
out-of-range error. -/
theorem getitem_past_end (r : Reader) (key : ℕ) (hk : r.length ≤ key) :
    r.getitem key = none := by
  unfold Reader.length at hk
  unfold Reader.getitem
  by_cases hwin : r.blank_position ≤ key ∧ key < r.blank_position + r.blank_number
  · rw [if_pos hwin]
  · rw [if_neg hwin]
    by_cases hup : r.blank_position + r.blank_number ≤ key
    · rw [if_pos hup]
      exact sourceLookup_eq_none_of_le _ _ (by omega)
    · rw [if_neg hup]
      exact sourceLookup_eq_none_of_le _ _ (by omega)

/-- Witness for `getitem_past_end`: a 2-page file with 1 blank at
position 1 has padded length 3; key 5 is past the end. -/
theorem getitem_past_end_witness :
    (Reader.mk [2] 1 1).length ≤ 5 ∧ (Reader.mk [2] 1 1).getitem 5 = none :=
  ⟨by decide, getitem_past_end (Reader.mk [2] 1 1) 5 (by decide)⟩

/-! ### Crop-mark spacing (schema/common.py, AbstractImpositor._crop_space) -/

/-- `AbstractImpositor._crop_space`: each side starts at 20pt and is
replaced by `margin / 2` when 20 exceeds that side's output margin.
The tuple is returned in the source's order `(left, right, bottom, top)`. -/
def crop_space (om : Margins) : ℚ × ℚ × ℚ × ℚ :=
  let top : ℚ := if 20 > om.top then om.top / 2 else 20
  let bottom : ℚ := if 20 > om.bottom then om.bottom / 2 else 20
  let left : ℚ := if 20 > om.left then om.left / 2 else 20
  let right : ℚ := if 20 > om.right then om.right / 2 else 20
  (left, right, bottom, top)

/-- Claim C8, as stated: the crop-space inset for a side with output
margin `m` is `min(20, m/2)`.  Refuted at margin 30pt: the code keeps
20pt, while `min(20, 30/2) = 15`. -/
theorem crop_space_not_min :
    ¬((crop_space (Margins.uniform 30)).1 = min 20 ((30 : ℚ) / 2)) := by
  norm_num [crop_space, Margins.uniform]

/-- Claim C8, amended: the crop-space inset for a side with output
margin `m` is `m/2` when `m < 20`pt and 20pt otherwise (this equals
`min(20, m/2)` only outside `20 < m < 40`); for nonnegative margins the
inset always lies in `[0, m]`, so the crop-mark segments, which stop
this far short of the occupied page area, never cross into it. -/
theorem crop_space_spec (om : Margins)
    (hl : 0 ≤ om.left) (hr : 0 ≤ om.right) (ht : 0 ≤ om.top) (hb : 0 ≤ om.bottom) :
    crop_space om =
      ((if om.left < 20 then om.left / 2 else 20),
       (if om.right < 20 then om.right / 2 else 20),
       (if om.bottom < 20 then om.bottom / 2 else 20),
       (if om.top < 20 then om.top / 2 else 20)) ∧
    (0 ≤ (crop_space om).1 ∧ (crop_space om).1 ≤ om.left) ∧
    (0 ≤ (crop_space om).2.1 ∧ (crop_space om).2.1 ≤ om.right) ∧
    (0 ≤ (crop_space om).2.2.1 ∧ (crop_space om).2.2.1 ≤ om.bottom) ∧
    (0 ≤ (crop_space om).2.2.2 ∧ (crop_space om).2.2.2 ≤ om.top) := by
  unfold crop_space
  refine ⟨rfl, ?_, ?_, ?_, ?_⟩ <;> constructor <;> split_ifs <;> simp <;> linarith

/-- Witness for `crop_space_spec` at uniform margins of 10pt. -/
theorem crop_space_spec_witness :
    (0 : ℚ) ≤ 10 ∧
      (crop_space (Margins.uniform 10) =
        ((if (10 : ℚ) < 20 then (10 : ℚ) / 2 else 20),
         (if (10 : ℚ) < 20 then (10 : ℚ) / 2 else 20),
         (if (10 : ℚ) < 20 then (10 : ℚ) / 2 else 20),
         (if (10 : ℚ) < 20 then (10 : ℚ) / 2 else 20)) ∧
       (0 ≤ (crop_space (Margins.uniform 10)).1 ∧
         (crop_space (Margins.uniform 10)).1 ≤ 10) ∧
       (0 ≤ (crop_space (Margins.uniform 10)).2.1 ∧
         (crop_space (Margins.uniform 10)).2.1 ≤ 10) ∧
       (0 ≤ (crop_space (Margins.uniform 10)).2.2.1 ∧
         (crop_space (Margins.uniform 10)).2.2.1 ≤ 10) ∧
       (0 ≤ (crop_space (Margins.uniform 10)).2.2.2 ∧
         (crop_space (Margins.uniform 10)).2.2.2 ≤ 10)) :=
  ⟨by norm_num,
    crop_space_spec (Margins.uniform 10) (by norm_num [Margins.uniform])
      (by norm_num [Margins.uniform]) (by norm_num [Margins.uniform])
      (by norm_num [Margins.uniform])⟩

/-! ### compute_signature (schema/common.py)

Python's `round(x, 6)` rounds a float to 6 decimal digits with
round-half-to-even; sizes are modelled exactly as rationals, and the
rounding as exact round-half-to-even on `ℚ`.  A raised
`UserError("The source page is too big …")` is modelled as `none`. -/

/-- Round-half-to-even to an integer. -/
def roundHalfEven (q : ℚ) : ℤ :=
  let n := ⌊q⌋
  let frac := q - n
  if frac < 1 / 2 then n
  else if 1 / 2 < frac then n + 1
  else if n % 2 = 0 then n else n + 1

/-- `round(x, 6)`: round to 6 decimal digits. -/
def round6 (q : ℚ) : ℚ := (roundHalfEven (q * 1000000) : ℚ) / 1000000

/-- `compute_signature(source, dest)`: the candidate grids are the
floors of the 6-digit-rounded size ratios, unrotated and rotated; the
oversize error (modelled as `none`) fires when both candidates contain
a zero, and otherwise the candidate with strictly more cells wins (the
rotated one on ties). -/
def compute_signature (source dest : ℚ × ℚ) : Option ((ℤ × ℤ) × Bool) :=
  let notrotated := (⌊round6 (dest.1 / source.1)⌋, ⌊round6 (dest.2 / source.2)⌋)
  let rotated := (⌊round6 (dest.2 / source.1)⌋, ⌊round6 (dest.1 / source.2)⌋)
  if (notrotated.1 = 0 ∨ notrotated.2 = 0) ∧ (rotated.1 = 0 ∨ rotated.2 = 0) then
    none
  else if notrotated.1 * notrotated.2 > rotated.1 * rotated.2 then
    some (notrotated, false)
  else
    some (rotated, true)

/-- Claim C3: `compute_signature` fails with the oversize error exactly
when the source fits zero times in the destination both unrotated and
rotated (a zero in both candidate grids); otherwise it returns one of
the two candidate grids — each dimension the floor of the corresponding
6-digit-rounded size ratio — whose cell count is the maximum of the two;
concretely, a 100×100 source in a 210×297 destination gives a 2×2 grid
and a 50×50 destination gives the oversize error. -/
theorem compute_signature_spec :
    (∀ sw sh dw dh : ℚ, 0 < sw → 0 < sh →
      (compute_signature (sw, sh) (dw, dh) = none ↔
        ((⌊round6 (dw / sw)⌋ = 0 ∨ ⌊round6 (dh / sh)⌋ = 0) ∧
         (⌊round6 (dh / sw)⌋ = 0 ∨ ⌊round6 (dw / sh)⌋ = 0))) ∧
      (∀ sig rot, compute_signature (sw, sh) (dw, dh) = some (sig, rot) →
        (sig = (⌊round6 (dw / sw)⌋, ⌊round6 (dh / sh)⌋) ∨
         sig = (⌊round6 (dh / sw)⌋, ⌊round6 (dw / sh)⌋)) ∧
        sig.1 * sig.2 =
          max (⌊round6 (dw / sw)⌋ * ⌊round6 (dh / sh)⌋)
            (⌊round6 (dh / sw)⌋ * ⌊round6 (dw / sh)⌋))) ∧
    compute_signature (100, 100) (210, 297) = some ((2, 2), true) ∧
    compute_signature (100, 100) (50, 50) = none := by
  refine ⟨fun sw sh dw dh hsw hsh => ⟨?_, ?_⟩, ?_, ?_⟩
  · unfold compute_signature
    dsimp only
    split_ifs with h1 h2
    · exact iff_of_true rfl h1
    · exact iff_of_false (by simp) h1
    · exact iff_of_false (by simp) h1
  · intro sig rot
    unfold compute_signature
    dsimp only
    split_ifs with h1 h2
    · intro h; exact absurd h (by simp)
    · intro h
      rw [Option.some_inj] at h
      injection h with hsig hrot
      subst hsig
      refine ⟨Or.inl rfl, ?_⟩
      dsimp only
      exact (max_eq_left (le_of_lt h2)).symm
    · intro h
      rw [Option.some_inj] at h
      injection h with hsig hrot
      subst hsig
      refine ⟨Or.inr rfl, ?_⟩
      dsimp only
      exact (max_eq_right (le_of_not_lt h2)).symm
  · unfold compute_signature round6 roundHalfEven
    norm_num
  · unfold compute_signature round6 roundHalfEven
    norm_num

/-- Witness for `compute_signature_spec` at a 100×100 source and a
210×297 destination. -/
theorem compute_signature_spec_witness :
    (0 : ℚ) < 100 ∧
      ((compute_signature (100, 100) (210, 297) = none ↔
        ((⌊round6 ((210 : ℚ) / 100)⌋ = 0 ∨ ⌊round6 ((297 : ℚ) / 100)⌋ = 0) ∧
         (⌊round6 ((297 : ℚ) / 100)⌋ = 0 ∨ ⌊round6 ((210 : ℚ) / 100)⌋ = 0))) ∧
      (∀ sig rot, compute_signature (100, 100) (210, 297) = some (sig, rot) →
        (sig = (⌊round6 ((210 : ℚ) / 100)⌋, ⌊round6 ((297 : ℚ) / 100)⌋) ∨
         sig = (⌊round6 ((297 : ℚ) / 100)⌋, ⌊round6 ((210 : ℚ) / 100)⌋)) ∧
        sig.1 * sig.2 =
          max (⌊round6 ((210 : ℚ) / 100)⌋ * ⌊round6 ((297 : ℚ) / 100)⌋)
            (⌊round6 ((297 : ℚ) / 100)⌋ * ⌊round6 ((210 : ℚ) / 100)⌋))) :=
  ⟨by norm_num, compute_signature_spec.1 100 100 210 297 (by norm_num) (by norm_num)⟩

/-! ### The wire scheme (schema/wire)

`WireImpositor.base_matrix` fills `recto[x][y]` with `Page(2*i*repeat, …)`
and `verso[signature[0]-x-1][y]` with `Page(2*i*repeat+1, …)`, where `i`
enumerates `itertools.product(range(w), range(h))`, so `i = x*h + y`,
and `repeat = total // (2*w*h)`.  The Lean definitions below are the
same assignments written as comprehensions: for the verso, substituting
the slot column `x' = w-1-x` (so `x = w-1-x'`) turns the mirrored
assignment into a direct one, and the source's margin conditions
`x == w-1` / `x == 0` become `x' = 0` / `x' = w-1`. -/

def wire_recto (om : Margins) (im : ℚ) (w h rep : ℕ) : Matrix :=
  mkMatrix ((List.range w).map fun x => (List.range h).map fun y =>
    ⟨(2 * (x * h + y) * rep : ℕ), 0,
     (if x = 0 then om.left else im / 2),
     (if x = w - 1 then om.right else im / 2),
     (if y = 0 then om.top else im / 2),
     (if y = h - 1 then om.bottom else im / 2)⟩)

def wire_verso (om : Margins) (im : ℚ) (w h rep : ℕ) : Matrix :=
  mkMatrix ((List.range w).map fun x => (List.range h).map fun y =>
    ⟨(2 * ((w - 1 - x) * h + y) * rep + 1 : ℕ), 0,
     (if x = 0 then om.left else im / 2),
     (if x = w - 1 then om.right else im / 2),
     (if y = 0 then om.top else im / 2),
     (if y = h - 1 then om.bottom else im / 2)⟩)

/-- `WireImpositor.base_matrix(total)`: yields the recto then the verso,
with `repeat = total // (2*w*h)`. -/
def wire_base_matrix (om : Margins) (im : ℚ) (w h total : ℕ) : List Matrix :=
  [wire_recto om im w h (total / (2 * w * h)),
   wire_verso om im w h (total / (2 * w * h))]

/-- `WireImpositor.matrixes(pages)`: `stack_matrixes` of the base pair
with `step = 2` and `repeat = pages // (2*w*h)`. -/
def wire_matrixes (om : Margins) (im : ℚ) (w h pages : ℕ) : List Matrix :=
  stack_matrixes (wire_base_matrix om im w h pages) 2 (pages / (2 * w * h))

lemma length_flatMap_pair {α : Type} (f g : ℕ → α) (r : ℕ) :
    ((List.range r).flatMap fun i => [f i, g i]).length = 2 * r := by
  induction r with
  | zero => rfl
  | succ n ih =>
    rw [List.range_succ, List.flatMap_append, List.length_append, ih]
    simp
    omega

lemma flatMap_pair_getD {α : Type} [Inhabited α] (f g : ℕ → α) (r s : ℕ) (hs : s < r) :
    ((List.range r).flatMap fun i => [f i, g i]).getD (2 * s) default = f s ∧
    ((List.range r).flatMap fun i => [f i, g i]).getD (2 * s + 1) default = g s := by
  induction r with
  | zero => omega
  | succ n ih =>
    rw [List.range_succ, List.flatMap_append]
    have hlen := length_flatMap_pair f g n
    rcases Nat.lt_or_ge s n with h | h
    · exact ⟨by rw [List.getD_append _ _ _ _ (by omega)]; exact (ih h).1,
        by rw [List.getD_append _ _ _ _ (by omega)]; exact (ih h).2⟩
    · have hs' : s = n := by omega
      subst hs'
      constructor
      · rw [List.getD_append_right _ _ _ _ (by omega), hlen]
        simp
      · rw [List.getD_append_right _ _ _ _ (by omega), hlen]
        have h2 : 2 * s + 1 - 2 * s = 1 := by omega
        rw [h2]
        simp

lemma stack_matrixes_pair_getD (A B : Matrix) (step : ℤ) (rep s : ℕ) (hs : s < rep) :
    (stack_matrixes [A, B] step rep).getD (2 * s) default = A.stack (s * step) ∧
    (stack_matrixes [A, B] step rep).getD (2 * s + 1) default = B.stack (s * step) := by
  unfold stack_matrixes
  have he : ∀ i : ℕ, [A, B].map (fun m => m.stack (i * step))
      = [A.stack (i * step), B.stack (i * step)] := fun i => rfl
  simp only [he]
  exact flatMap_pair_getD (fun i => A.stack (i * step)) (fun i => B.stack (i * step)) rep s hs

lemma wire_recto_get (om : Margins) (im : ℚ) (w h rep x y : ℕ)
    (hx : x < w) (hy : y < h) :
    ((wire_recto om im w h rep).get x y).number = (2 * (x * h + y) * rep : ℕ) := by
  unfold wire_recto
  rw [mkMatrix_map_range, get_mk_map_range _ _ _ _ _ hx hy]

lemma wire_verso_get (om : Margins) (im : ℚ) (w h rep x y : ℕ)
    (hx : x < w) (hy : y < h) :
    ((wire_verso om im w h rep).get x y).number = (2 * ((w - 1 - x) * h + y) * rep + 1 : ℕ) := by
  unfold wire_verso
  rw [mkMatrix_map_range, get_mk_map_range _ _ _ _ _ hx hy]

lemma wire_recto_width (om : Margins) (im : ℚ) (w h rep : ℕ) :
    (wire_recto om im w h rep).width = w := by
  unfold wire_recto
  rw [mkMatrix_map_range, width_mk_map_range]

lemma wire_recto_height (om : Margins) (im : ℚ) (w h rep : ℕ) (hw : 0 < w) :
    (wire_recto om im w h rep).height = h := by
  unfold wire_recto
  rw [mkMatrix_map_range, height_mk_map_range _ _ hw]
  simp

lemma wire_verso_width (om : Margins) (im : ℚ) (w h rep : ℕ) :
    (wire_verso om im w h rep).width = w := by
  unfold wire_verso
  rw [mkMatrix_map_range, width_mk_map_range]

lemma wire_verso_height (om : Margins) (im : ℚ) (w h rep : ℕ) (hw : 0 < w) :
    (wire_verso om im w h rep).height = h := by
  unfold wire_verso
  rw [mkMatrix_map_range, height_mk_map_range _ _ hw]
  simp

/-- Claim C9: for the wire scheme with signature `(w, h)` and padded
page count `n = 2*w*h*rep`, on repetition `s < rep` the recto slot
`(x, y)` — base index `i = x*h + y` — holds page `2*i*rep + 2*s`, and
the horizontally mirrored verso slot `(w-1-x, y)` holds
`2*i*rep + 2*s + 1`: the base index is multiplied by the total number
of repetitions before the per-sheet offset is added. -/
theorem wire_interleaves (om : Margins) (im : ℚ) (w h rep s x y : ℕ)
    (hw : 0 < w) (hh : 0 < h) (hs : s < rep) (hx : x < w) (hy : y < h) :
    (((wire_matrixes om im w h (2 * w * h * rep)).getD (2 * s) default).get x y).number
      = 2 * (x * h + y) * rep + 2 * s ∧
    (((wire_matrixes om im w h (2 * w * h * rep)).getD (2 * s + 1) default).get
        (w - 1 - x) y).number
      = 2 * (x * h + y) * rep + 2 * s + 1 := by
  have hwh : 0 < 2 * w * h := by positivity
  have hdiv : 2 * w * h * rep / (2 * w * h) = rep := Nat.mul_div_cancel_left rep hwh
  unfold wire_matrixes wire_base_matrix
  rw [hdiv]
  obtain ⟨h1, h2⟩ := stack_matrixes_pair_getD (wire_recto om im w h rep)
    (wire_verso om im w h rep) 2 rep s hs
  rw [h1, h2]
  have hx' : w - 1 - x < w := by omega
  constructor
  · rw [stack_get _ _ x y (by rw [wire_recto_width]; exact hx)
      (by rw [wire_recto_height _ _ _ _ _ hw]; exact hy)]
    dsimp only
    rw [wire_recto_get _ _ _ _ _ _ _ hx hy]
    push_cast
    ring
  · rw [stack_get _ _ (w - 1 - x) y (by rw [wire_verso_width]; exact hx')
      (by rw [wire_verso_height _ _ _ _ _ hw]; exact hy)]
    dsimp only
    rw [wire_verso_get _ _ _ _ _ _ _ hx' hy]
    have hww : w - 1 - (w - 1 - x) = x := by omega
    rw [hww]
    push_cast
    ring

/-- Witness for `wire_interleaves`: signature (2, 2), 3 repetitions
(24 padded pages), repetition 1, slot (1, 0). -/
theorem wire_interleaves_witness :
    0 < 2 ∧ 1 < 3 ∧ 1 < 2 ∧ 0 < 2 ∧
      ((((wire_matrixes (Margins.uniform 0) 0 2 2 (2 * 2 * 2 * 3)).getD (2 * 1)
            default).get 1 0).number
        = 2 * (1 * 2 + 0) * 3 + 2 * 1 ∧
       (((wire_matrixes (Margins.uniform 0) 0 2 2 (2 * 2 * 2 * 3)).getD (2 * 1 + 1)
            default).get (2 - 1 - 1) 0).number
        = 2 * (1 * 2 + 0) * 3 + 2 * 1 + 1) :=
  ⟨by norm_num, by norm_num, by norm_num, by norm_num,
    wire_interleaves (Margins.uniform 0) 0 2 2 3 1 1 0 (by norm_num) (by norm_num)
      (by norm_num) (by norm_num) (by norm_num)⟩

/-! ### Placement geometry: Matrix.topleft and Matrix.pagesize -/

/-- The horizontal footprint of a slot: a rotation of 90 or 270 swaps
the source width and height (`if self[i, y].rotate in (90, 270)`). -/
def Page.hcontrib (p : Page) (size : ℚ × ℚ) : ℚ :=
  if p.rotate = 90 ∨ p.rotate = 270 then size.2 else size.1

/-- The vertical footprint of a slot (the swapped counterpart). -/
def Page.vcontrib (p : Page) (size : ℚ × ℚ) : ℚ :=
  if p.rotate = 90 ∨ p.rotate = 270 then size.1 else size.2

/-- `Matrix.topleft(coord, size)`: accumulate the margins and footprints
of the slots before `coord` in its row (for the horizontal offset) and
in its column (for the vertical offset), then add the slot's own
left/top margin. -/
def Matrix.topleft (m : Matrix) (coord : ℕ × ℕ) (size : ℚ × ℚ) : ℚ × ℚ :=
  (((List.range coord.1).map fun i =>
      (m.get i coord.2).left + (m.get i coord.2).right + (m.get i coord.2).hcontrib size).sum
    + (m.get coord.1 coord.2).left,
   ((List.range coord.2).map fun j =>
      (m.get coord.1 j).top + (m.get coord.1 j).bottom + (m.get coord.1 j).vcontrib size).sum
    + (m.get coord.1 coord.2).top)

/-- The total width of row `y` (the `line` accumulator of `pagesize`). -/
def Matrix.rowTotal (m : Matrix) (size : ℚ × ℚ) (y : ℕ) : ℚ :=
  ((List.range m.width).map fun x =>
    (m.get x y).left + (m.get x y).right + (m.get x y).hcontrib size).sum

/-- The total height of column `x` (the `row` accumulator of `pagesize`). -/
def Matrix.colTotal (m : Matrix) (size : ℚ × ℚ) (x : ℕ) : ℚ :=
  ((List.range m.height).map fun y =>
    (m.get x y).top + (m.get x y).bottom + (m.get x y).vcontrib size).sum

/-- `max` over a nonempty list (Python's `max` raises on an empty one,
modelled by `none`). -/
def listMax : List ℚ → Option ℚ
  | [] => none
  | a :: t => some (t.foldl max a)

/-- `Matrix.pagesize(size)`: the per-row width sums are collected in a
set (modelled as a deduplicated list — `max` is unaffected) and the
maximum taken, and likewise the per-column height sums; the `getD 0`
default is never reached on the nonempty matrices the engine builds. -/
def Matrix.pagesize (m : Matrix) (size : ℚ × ℚ) : ℚ × ℚ :=
  ((listMax (((List.range m.height).map (m.rowTotal size)).dedup)).getD 0,
   (listMax (((List.range m.width).map (m.colTotal size)).dedup)).getD 0)

lemma le_foldl_max (l : List ℚ) (b a : ℚ) (h : a ≤ b) : a ≤ l.foldl max b := by
  induction l generalizing b with
  | nil => simpa using h
  | cons c t ih => exact ih (max b c) (le_trans h (le_max_left b c))

lemma le_foldl_max_of_mem (l : List ℚ) (b a : ℚ) (h : a ∈ l) : a ≤ l.foldl max b := by
  induction l generalizing b with
  | nil => cases h
  | cons c t ih =>
    rcases List.mem_cons.mp h with rfl | h'
    · exact le_foldl_max t (max b a) a (le_max_right b a)
    · exact ih (max b c) h'

lemma le_listMax_getD_of_mem (l : List ℚ) (a : ℚ) (h : a ∈ l) : a ≤ (listMax l).getD 0 := by
  cases l with
  | nil => cases h
  | cons c t =>
    rw [listMax]
    simp only [Option.getD_some]
    rcases List.mem_cons.mp h with rfl | h'
    · exact le_foldl_max t a a le_rfl
    · exact le_foldl_max_of_mem t c a h'

lemma sum_map_range_succ (f : ℕ → ℚ) (n : ℕ) :
    ((List.range (n + 1)).map f).sum = ((List.range n).map f).sum + f n := by
  rw [List.range_succ, List.map_append, List.sum_append]
  simp

lemma sum_map_range_le (f : ℕ → ℚ) (hf : ∀ i, 0 ≤ f i) {a b : ℕ} (hab : a ≤ b) :
    ((List.range a).map f).sum ≤ ((List.range b).map f).sum := by
  induction b with
  | zero =>
    have : a = 0 := by omega
    subst this
    exact le_rfl
  | succ k ih =>
    rcases Nat.eq_or_lt_of_le hab with rfl | hlt
    · exact le_rfl
    · have ha : a ≤ k := by omega
      calc ((List.range a).map f).sum ≤ ((List.range k).map f).sum := ih ha
        _ ≤ ((List.range (k + 1)).map f).sum := by
            rw [sum_map_range_succ]
            linarith [hf k]

/-- All slot margins of a matrix are nonnegative (including the default
page returned for out-of-range reads, whose margins are 0). -/
def MargNonneg (m : Matrix) : Prop :=
  ∀ x y : ℕ, 0 ≤ (m.get x y).left ∧ 0 ≤ (m.get x y).right ∧
    0 ≤ (m.get x y).top ∧ 0 ≤ (m.get x y).bottom

/-- No slot placement overflows the sheet: the top-left offset of an
in-range slot plus its (rotation-swapped) footprint stays within the
page size, in both axes — for any matrix with nonnegative margins and a
nonnegative source size. -/
theorem topleft_within_pagesize (m : Matrix) (size : ℚ × ℚ)
    (hmarg : MargNonneg m) (hs1 : 0 ≤ size.1) (hs2 : 0 ≤ size.2)
    (x y : ℕ) (hx : x < m.width) (hy : y < m.height) :
    (m.topleft (x, y) size).1 + (m.get x y).hcontrib size ≤ (m.pagesize size).1 ∧
    (m.topleft (x, y) size).2 + (m.get x y).vcontrib size ≤ (m.pagesize size).2 := by
  have hcn : ∀ p : Page, 0 ≤ p.hcontrib size := by
    intro p; unfold Page.hcontrib; split_ifs <;> assumption
  have vcn : ∀ p : Page, 0 ≤ p.vcontrib size := by
    intro p; unfold Page.vcontrib; split_ifs <;> assumption
  constructor
  · set f : ℕ → ℚ := fun i =>
      (m.get i y).left + (m.get i y).right + (m.get i y).hcontrib size with hf_def
    have hf : ∀ i, 0 ≤ f i := by
      intro i
      have h1 := (hmarg i y).1
      have h2 := (hmarg i y).2.1
      have h3 := hcn (m.get i y)
      simp only [hf_def]
      linarith
    have htl : (m.topleft (x, y) size).1 = ((List.range x).map f).sum + (m.get x y).left :=
      rfl
    have hrow : m.rowTotal size y = ((List.range m.width).map f).sum := rfl
    have hmem : m.rowTotal size y ≤ (m.pagesize size).1 := by
      unfold Matrix.pagesize
      dsimp only
      apply le_listMax_getD_of_mem
      rw [List.mem_dedup]
      exact List.mem_map.mpr ⟨y, List.mem_range.mpr hy, rfl⟩
    have hstep : ((List.range x).map f).sum + (m.get x y).left + (m.get x y).hcontrib size
        ≤ ((List.range (x + 1)).map f).sum := by
      rw [sum_map_range_succ]
      have h2 := (hmarg x y).2.1
      simp only [hf_def]
      linarith
    have hmono : ((List.range (x + 1)).map f).sum ≤ ((List.range m.width).map f).sum :=
      sum_map_range_le f hf hx
    rw [htl]
    linarith
  · set g : ℕ → ℚ := fun j =>
      (m.get x j).top + (m.get x j).bottom + (m.get x j).vcontrib size with hg_def
    have hg : ∀ j, 0 ≤ g j := by
      intro j
      have h1 := (hmarg x j).2.2.1
      have h2 := (hmarg x j).2.2.2
      have h3 := vcn (m.get x j)
      simp only [hg_def]
      linarith
    have htl : (m.topleft (x, y) size).2 = ((List.range y).map g).sum + (m.get x y).top :=
      rfl
    have hcol : m.colTotal size x = ((List.range m.height).map g).sum := rfl
    have hmem : m.colTotal size x ≤ (m.pagesize size).2 := by
      unfold Matrix.pagesize
      dsimp only
      apply le_listMax_getD_of_mem
      rw [List.mem_dedup]
      exact List.mem_map.mpr ⟨x, List.mem_range.mpr hx, rfl⟩
    have hstep : ((List.range y).map g).sum + (m.get x y).top + (m.get x y).vcontrib size
        ≤ ((List.range (y + 1)).map g).sum := by
      rw [sum_map_range_succ]
      have h2 := (hmarg x y).2.2.2
      simp only [hg_def]
      linarith
    have hmono : ((List.range (y + 1)).map g).sum ≤ ((List.range m.height).map g).sum :=
      sum_map_range_le g hg hy
    rw [htl]
    linarith

/-! ### The cards scheme (schema/cards)

`CardsImpositor.base_matrix` fills `recto[x][y]` with `Page(2*i, …)` and
`verso[signature[0]-x-1][y]` with `Page(2*i+1, …)`, `i = x*h + y` as in
the wire scheme; the mirrored verso assignment is again rewritten as a
direct comprehension via `x' = w-1-x`. -/

def cards_recto (om : Margins) (im : ℚ) (w h : ℕ) : Matrix :=
  mkMatrix ((List.range w).map fun x => (List.range h).map fun y =>
    ⟨(2 * (x * h + y) : ℕ), 0,
     (if x = 0 then om.left else im / 2),
     (if x = w - 1 then om.right else im / 2),
     (if y = 0 then om.top else im / 2),
     (if y = h - 1 then om.bottom else im / 2)⟩)

def cards_verso (om : Margins) (im : ℚ) (w h : ℕ) : Matrix :=
  mkMatrix ((List.range w).map fun x => (List.range h).map fun y =>
    ⟨(2 * ((w - 1 - x) * h + y) + 1 : ℕ), 0,
     (if x = 0 then om.left else im / 2),
     (if x = w - 1 then om.right else im / 2),
     (if y = 0 then om.top else im / 2),
     (if y = h - 1 then om.bottom else im / 2)⟩)

/-- `CardsImpositor.matrixes(pages)`: `stack_matrixes` of the base pair
with `step = 2*w*h` and `repeat = pages // (2*w*h)`. -/
def cards_matrixes (om : Margins) (im : ℚ) (w h pages : ℕ) : List Matrix :=
  stack_matrixes [cards_recto om im w h, cards_verso om im w h]
    (2 * w * h : ℕ) (pages / (2 * w * h))

lemma default_page_margins :
    0 ≤ (default : Page).left ∧ 0 ≤ (default : Page).right ∧
      0 ≤ (default : Page).top ∧ 0 ≤ (default : Page).bottom := by
  decide

lemma margNonneg_canonical (f : ℕ → ℕ → Page) (w h : ℕ)
    (hf : ∀ x y, 0 ≤ (f x y).left ∧ 0 ≤ (f x y).right ∧
      0 ≤ (f x y).top ∧ 0 ≤ (f x y).bottom) :
    MargNonneg ⟨(List.range w).map fun x => (List.range h).map fun y => f x y⟩ := by
  intro x y
  by_cases hx : x < w
  · by_cases hy : y < h
    · rw [get_mk_map_range _ _ _ _ _ hx hy]
      exact hf x y
    · unfold Matrix.get
      rw [getD_map_range _ _ _ hx]
      have hh : ((List.range h).map fun y => f x y).length ≤ y := by
        simp
        omega
      rw [List.getD_eq_default _ _ hh]
      exact default_page_margins
  · unfold Matrix.get
    have hw : ((List.range w).map fun x => (List.range h).map fun y => f x y).length ≤ x := by
      simp
      omega
    rw [List.getD_eq_default _ _ hw]
    have h0 : (([] : List Page)).getD y default = default := rfl
    rw [h0]
    exact default_page_margins

lemma margNonneg_stack (m : Matrix) (k : ℤ) (hm : MargNonneg m) : MargNonneg (m.stack k) := by
  rw [stack_eq]
  apply margNonneg_canonical
  intro x y
  exact hm x y

lemma margNonneg_cards_recto (om : Margins) (im : ℚ) (w h : ℕ)
    (hl : 0 ≤ om.left) (hr : 0 ≤ om.right) (ht : 0 ≤ om.top) (hb : 0 ≤ om.bottom)
    (him : 0 ≤ im) :
    MargNonneg (cards_recto om im w h) := by
  unfold cards_recto
  rw [mkMatrix_map_range]
  apply margNonneg_canonical
  intro x y
  refine ⟨?_, ?_, ?_, ?_⟩ <;> dsimp only <;> split_ifs <;> first | assumption | linarith

lemma margNonneg_cards_verso (om : Margins) (im : ℚ) (w h : ℕ)
    (hl : 0 ≤ om.left) (hr : 0 ≤ om.right) (ht : 0 ≤ om.top) (hb : 0 ≤ om.bottom)
    (him : 0 ≤ im) :
    MargNonneg (cards_verso om im w h) := by
  unfold cards_verso
  rw [mkMatrix_map_range]
  apply margNonneg_canonical
  intro x y
  refine ⟨?_, ?_, ?_, ?_⟩ <;> dsimp only <;> split_ifs <;> first | assumption | linarith

lemma mem_stack_matrixes_pair (A B : Matrix) (step : ℤ) (rep : ℕ) (m : Matrix)
    (hm : m ∈ stack_matrixes [A, B] step rep) :
    ∃ i : ℕ, m = A.stack (i * step) ∨ m = B.stack (i * step) := by
  unfold stack_matrixes at hm
  rw [List.mem_flatMap] at hm
  obtain ⟨i, _, hmem⟩ := hm
  rw [List.mem_map] at hmem
  obtain ⟨a, ha, rfl⟩ := hmem
  rcases List.mem_cons.mp ha with rfl | ha'
  · exact ⟨i, Or.inl rfl⟩
  · rcases List.mem_cons.mp ha' with rfl | ha''
    · exact ⟨i, Or.inr rfl⟩
    · cases ha''

/-- Claim C6: for every matrix yielded by the cards scheme with
signature `(w, h)` and every source page size, every slot's top-left
offset plus its (rotation-swapped when rotate is 90 or 270) footprint
stays within the sheet size computed by `pagesize`, in both axes. -/
theorem cards_slots_within_sheet (om : Margins) (im : ℚ) (w h n : ℕ) (size : ℚ × ℚ)
    (hl : 0 ≤ om.left) (hr : 0 ≤ om.right) (ht : 0 ≤ om.top) (hb : 0 ≤ om.bottom)
    (him : 0 ≤ im) (hs1 : 0 ≤ size.1) (hs2 : 0 ≤ size.2) :
    ∀ m ∈ cards_matrixes om im w h n, ∀ x y : ℕ, x < m.width → y < m.height →
      (m.topleft (x, y) size).1 + (m.get x y).hcontrib size ≤ (m.pagesize size).1 ∧
      (m.topleft (x, y) size).2 + (m.get x y).vcontrib size ≤ (m.pagesize size).2 := by
  intro m hm x y hx hy
  obtain ⟨i, hcase⟩ := mem_stack_matrixes_pair _ _ _ _ m hm
  have hmarg : MargNonneg m := by
    rcases hcase with rfl | rfl
    · exact margNonneg_stack _ _ (margNonneg_cards_recto om im w h hl hr ht hb him)
    · exact margNonneg_stack _ _ (margNonneg_cards_verso om im w h hl hr ht hb him)
  exact topleft_within_pagesize m size hmarg hs1 hs2 x y hx hy

/-- Witness for `cards_slots_within_sheet` with margins 1pt, input
margin 2pt, a 2×2 signature, 8 pages and a 100×50 source. -/
theorem cards_slots_within_sheet_witness :
    (0 : ℚ) ≤ 1 ∧ (0 : ℚ) ≤ 2 ∧ (0 : ℚ) ≤ 100 ∧ (0 : ℚ) ≤ 50 ∧
      ∀ m ∈ cards_matrixes (Margins.uniform 1) 2 2 2 8, ∀ x y : ℕ,
        x < m.width → y < m.height →
        (m.topleft (x, y) (100, 50)).1 + (m.get x y).hcontrib (100, 50)
          ≤ (m.pagesize (100, 50)).1 ∧
        (m.topleft (x, y) (100, 50)).2 + (m.get x y).vcontrib (100, 50)
          ≤ (m.pagesize (100, 50)).2 :=
  ⟨by norm_num, by norm_num, by norm_num, by norm_num,
    cards_slots_within_sheet (Margins.uniform 1) 2 2 2 8 (100, 50)
      (by norm_num [Margins.uniform]) (by norm_num [Margins.uniform])
      (by norm_num [Margins.uniform]) (by norm_num [Margins.uniform])
      (by norm_num) (by norm_num) (by norm_num)⟩

/-! ### The perfect-binding fold generator (schema/perfect)

`PerfectImpositor.base_matrix` builds the recto page-number matrix by
repeated folding: starting from `recto = [[0]]` and `total = 2`, each
fold character doubles `total`, inserts a block of `None` slots in the
middle of the matrix (columns for `h`, rows for `v`), and then fills
every `None` cell from its mirror neighbour
(`total - recto[evenodd2oddeven(x)][y] - 1`, resp. the `y` analogue),
scanning cells in increasing `x` then `y` order and reading the current
state.  When the mirror neighbour is itself still `None`, Python
evaluates `total - None - 1` and raises a `TypeError`; the embedding
threads the partially-filled state as `List (List (Option ℕ))` and
returns `none` there. -/

/-- `evenodd2oddeven` (schema/perfect). -/
def evenodd2oddeven (number : ℕ) : ℕ :=
  if number % 2 = 0 then number + 1 else number - 1

/-- One cell of the fill loop of a horizontal fold. -/
def fillCellH (total : ℕ) (st : List (List (Option ℕ))) (x y : ℕ) :
    Option (List (List (Option ℕ))) :=
  match (st.getD x []).getD y none with
  | some _ => some st
  | none =>
    match (st.getD (evenodd2oddeven x) []).getD y none with
    | none => none
    | some v => some (st.set x ((st.getD x []).set y (some (total - v - 1))))

/-- One cell of the fill loop of a vertical fold. -/
def fillCellV (total : ℕ) (st : List (List (Option ℕ))) (x y : ℕ) :
    Option (List (List (Option ℕ))) :=
  match (st.getD x []).getD y none with
  | some _ => some st
  | none =>
    match (st.getD x []).getD (evenodd2oddeven y) none with
    | none => none
    | some v => some (st.set x ((st.getD x []).set y (some (total - v - 1))))

/-- The double fill loop `for x in range(len(recto)): for y in
range(len(recto[x])): …`, threading the matrix state cell by cell. -/
def fillLoop (cell : List (List (Option ℕ)) → ℕ → ℕ → Option (List (List (Option ℕ))))
    (st : List (List (Option ℕ))) : Option (List (List (Option ℕ))) :=
  (List.range st.length).foldlM
    (fun acc x => (List.range ((acc.getD x []).length)).foldlM
      (fun acc2 y => cell acc2 x y) acc)
    st

/-- Horizontal fold expansion:
`recto[:L//2] + [[None]*len(col) for col in recto] + recto[L//2:]`. -/
def hExpand (recto : List (List ℕ)) : List (List (Option ℕ)) :=
  let st := recto.map (List.map some)
  st.take (recto.length / 2) ++ recto.map (fun col => col.map fun _ => (none : Option ℕ))
    ++ st.drop (recto.length / 2)

/-- Vertical fold expansion, per column:
`col[:len(col)//2] + [None]*len(col) + col[len(col)//2:]`. -/
def vExpand (recto : List (List ℕ)) : List (List (Option ℕ)) :=
  recto.map fun col =>
    (col.map some).take (col.length / 2) ++ col.map (fun _ => (none : Option ℕ))
      ++ (col.map some).drop (col.length / 2)

/-- Collapse a fully filled state back to a plain number matrix. -/
def extractState (st : List (List (Option ℕ))) : Option (List (List ℕ)) :=
  st.mapM fun col => col.mapM id

/-- One iteration of the fold loop of `PerfectImpositor.base_matrix`:
`total *= 2` and then the matching expansion-and-fill (a character other
than `h`/`v` leaves the matrix unchanged but still doubles `total`,
exactly as in the source's pair of `if` statements). -/
def foldStep (acc : ℕ × Option (List (List ℕ))) (c : Char) : ℕ × Option (List (List ℕ)) :=
  let total := 2 * acc.1
  if c = 'h' then
    (total, acc.2.bind fun r => (fillLoop (fillCellH total) (hExpand r)).bind extractState)
  else if c = 'v' then
    (total, acc.2.bind fun r => (fillLoop (fillCellV total) (vExpand r)).bind extractState)
  else (total, acc.2)

/-- The recto page-number matrix of `PerfectImpositor.base_matrix`
(`recto[x][y]` is the number of the page in column `x`, row `y`);
`none` models the `TypeError` described above. -/
def foldRecto (folds : List Char) : Option (List (List ℕ)) :=
  (folds.foldl foldStep (2, some [[0]])).2

/-- The verso page numbers derived from the recto:
`verso[x][y] = evenodd2oddeven(recto[len(recto)-x-1][y])`. -/
def versoNums (recto : List (List ℕ)) : List (List ℕ) :=
  (List.range recto.length).map fun x =>
    (List.range ((recto.getD x []).length)).map fun y =>
      evenodd2oddeven ((recto.getD (recto.length - x - 1) []).getD y 0)

/-- Claim C2, as stated, is false: on the fold string `"hhh"` the
generator crashes (the fill for the third horizontal fold reads a
partner column that is itself still unfilled, so Python raises
`TypeError`), hence no recto matrix with the claimed shape and page
content is produced. -/
theorem perfect_base_matrix_hhh_fails :
    ¬∃ r, foldRecto ['h', 'h', 'h'] = some r ∧
      r.length = 2 ^ (['h', 'h', 'h'].count 'h') ∧
      (∀ col ∈ r, col.length = 2 ^ (['h', 'h', 'h'].count 'v')) ∧
      (r.flatten ++ (versoNums r).flatten).Perm
        (List.range (2 ^ (['h', 'h', 'h'].length + 1))) := by
  rintro ⟨r, hr, -⟩
  have hnone : foldRecto ['h', 'h', 'h'] = none := by decide
  rw [hnone] at hr
  cases hr

lemma length_eq_count_hv (folds : List Char) (hc : ∀ c ∈ folds, c = 'h' ∨ c = 'v') :
    folds.length = folds.count 'h' + folds.count 'v' := by
  induction folds with
  | nil => simp
  | cons a t ih =>
    have ha := hc a (List.mem_cons_self a t)
    have ht := ih fun c hc' => hc c (List.mem_cons_of_mem a hc')
    rcases ha with rfl | rfl <;> simp [List.count_cons, ht] <;> omega

/-- Claim C2, amended: for every fold string made of characters `h` and
`v` with at most two `h` and at most two `v` — the fold strings on
which the generator completes; a third fold along the same axis makes
the fill read a still-unfilled cell and crash — the recto matrix has
exactly `2^h` columns of `2^v` rows each, and the page numbers of recto
and verso together are exactly `{0, …, 2^(f+1)-1}` with no number
duplicated. -/
theorem perfect_base_matrix_folds (folds : List Char)
    (hc : ∀ c ∈ folds, c = 'h' ∨ c = 'v')
    (hcounth : folds.count 'h' ≤ 2) (hcountv : folds.count 'v' ≤ 2) :
    ∃ r, foldRecto folds = some r ∧
      r.length = 2 ^ folds.count 'h' ∧
      (∀ col ∈ r, col.length = 2 ^ folds.count 'v') ∧
      (r.flatten ++ (versoNums r).flatten).Perm (List.range (2 ^ (folds.length + 1))) := by
  have hlen : folds.length ≤ 4 := by
    have := length_eq_count_hv folds hc
    omega
  rcases folds with _ | ⟨a, _ | ⟨b, _ | ⟨c, _ | ⟨d, _ | ⟨e, t⟩⟩⟩⟩⟩
  · exact ⟨_, rfl, by decide, by decide, by decide⟩
  · rcases hc a (by simp) with rfl | rfl <;>
      exact ⟨_, rfl, by decide, by decide, by decide⟩
  · rcases hc a (by simp) with rfl | rfl <;> rcases hc b (by simp) with rfl | rfl <;>
      exact ⟨_, rfl, by decide, by decide, by decide⟩
  · rcases hc a (by simp) with rfl | rfl <;> rcases hc b (by simp) with rfl | rfl <;>
        rcases hc c (by simp) with rfl | rfl <;>
      first
        | exact absurd hcounth (by decide)
        | exact absurd hcountv (by decide)
        | exact ⟨_, rfl, by decide, by decide, by decide⟩
  · rcases hc a (by simp) with rfl | rfl <;> rcases hc b (by simp) with rfl | rfl <;>
        rcases hc c (by simp) with rfl | rfl <;> rcases hc d (by simp) with rfl | rfl <;>
      first
        | exact absurd hcounth (by decide)
        | exact absurd hcountv (by decide)
        | exact ⟨_, rfl, by decide, by decide, by decide⟩
  · exfalso
    simp at hlen

/-- Witness for `perfect_base_matrix_folds` at the fold string `"hv"`. -/
theorem perfect_base_matrix_folds_witness :
    (∀ c ∈ ['h', 'v'], c = 'h' ∨ c = 'v') ∧
    ['h', 'v'].count 'h' ≤ 2 ∧ ['h', 'v'].count 'v' ≤ 2 ∧
      ∃ r, foldRecto ['h', 'v'] = some r ∧
        r.length = 2 ^ ['h', 'v'].count 'h' ∧
        (∀ col ∈ r, col.length = 2 ^ ['h', 'v'].count 'v') ∧
        (r.flatten ++ (versoNums r).flatten).Perm
          (List.range (2 ^ (['h', 'v'].length + 1))) :=
  ⟨by decide, by decide, by decide,
    perfect_base_matrix_folds ['h', 'v'] (by decide) (by decide) (by decide)⟩

end PdfImpose
